import Mathlib

/-!
Shallow embedding of the concrete CPU-state core described by the
abstract contract in src/src/libtriton/includes/cpuInterface.hpp.
The header declares a pure-virtual interface (`CpuInterface`); the
behaviour of the store components behind it is modelled from the
specification (spec.md sections 3, 4.1, 4.2, 4.3, 4.5).
-/

namespace Triton

/-- Modelled from the spec: ConcreteMemoryStore is a sparse mapping from
address to last-known byte value; presence of the key, not the value, is
what mapped means.  The implementation behind the declarations
CpuInterface::setLastMemoryValue, getLastMemoryValue, isMemoryMapped and
unmapMemory is not in the sources. -/
abbrev MemStore := Nat → Option Nat

/-- The empty memory store: no address has ever been observed. -/
def emptyMem : MemStore := fun _ => none

/-- Modelled from the spec: setLastMemoryValue(addr, value) writes one byte
at addr and marks the address present; the stored value is an 8-bit byte
(triton::uint8), hence reduced mod 256. -/
def setLastMemoryValue (st : MemStore) (addr value : Nat) : MemStore :=
  fun a => if a = addr then some (value % 256) else st a

/-- Modelled from the spec: getLastMemoryValue(addr) returns the byte at
addr if present, else 0 (never-touched memory reads as zero). -/
def getLastMemoryValue (st : MemStore) (addr : Nat) : Nat :=
  (st addr).getD 0

/-- Modelled from the spec: getLastMemoryAreaValue(base, size) returns the
size bytes of the range in increasing address order, with the same
zero-default per missing byte. -/
def getLastMemoryAreaValue (st : MemStore) (base size : Nat) : List Nat :=
  (List.range size).map (fun i => getLastMemoryValue st (base + i))

/-- Modelled from the spec: isMemoryMapped(base, size) is true iff every
byte address in the range is present in the store. -/
def isMemoryMapped (st : MemStore) (base size : Nat) : Bool :=
  (List.range size).all (fun i => (st (base + i)).isSome)

/-- Modelled from the spec: unmapMemory(base, size) removes presence for
every byte address in the range, regardless of prior value. -/
def unmapMemory (st : MemStore) (base size : Nat) : MemStore :=
  fun a => if base ≤ a ∧ a < base + size then none else st a

/-- Modelled from the spec: the byte-sequence (std::vector) overload of
setLastMemoryAreaValue writes each byte of the sequence at increasing
addresses starting at base. -/
def setLastMemoryAreaValue (st : MemStore) (base : Nat) (values : List Nat) : MemStore :=
  match values with
  | [] => st
  | v :: rest => setLastMemoryAreaValue (setLastMemoryValue st base v) (base + 1) rest

/-- Modelled from the spec: the pointer-and-length overload of
setLastMemoryAreaValue; the pointed-to area is modelled as a function from
index to byte, and byte i of the area is written to base + i for each
i below size (the writes proceed in increasing index order). -/
def setLastMemoryAreaValuePtr (st : MemStore) (base : Nat) (area : Nat → Nat) (size : Nat) : MemStore :=
  match size with
  | 0 => st
  | n + 1 => setLastMemoryValue (setLastMemoryAreaValuePtr st base area n) (base + n) (area n)

/-- Modelled from the spec: the MemoryOperand overload of
getLastMemoryValue assembles size bytes starting at addr into one wide
value using the little-endian byte order: the byte at addr + i lands at
bit positions 8i to 8i+7 of the result, OR-composed. -/
def getLastMemoryValueMem (st : MemStore) (addr : Nat) : Nat → Nat
  | 0 => 0
  | n + 1 => getLastMemoryValueMem st addr n ||| (getLastMemoryValue st (addr + n)) <<< (8 * n)

/-- A write history: each entry is an (address, value) pair passed to
setLastMemoryValue, applied in list order to a store. -/
def applyWrites (st : MemStore) (ws : List (Nat × Nat)) : MemStore :=
  ws.foldl (fun s w => setLastMemoryValue s w.1 w.2) st

/-- The value of the most recent write to addr in the history, if any. -/
def lastWrite : List (Nat × Nat) → Nat → Option Nat
  | [], _ => none
  | w :: ws, addr =>
    match lastWrite ws addr with
    | some v => some v
    | none => if w.1 = addr then some w.2 else none

/-- Every byte present in the store is an 8-bit value.  This is the store
invariant maintained by every write operation. -/
def memWF (st : MemStore) : Prop :=
  ∀ a v, st a = some v → v < 256

/-- Modelled from the spec: a register operand describes a bit range
[lowBit, highBit] inside a root (parent) register, and carries the
concrete value used by setLastRegisterValue (RegisterOperand in
src/src/libtriton/includes/cpuInterface.hpp, fields per spec section 3). -/
structure RegisterOperand where
  parentId : Nat
  lowBit : Nat
  highBit : Nat
  value : Nat

/-- Modelled from the spec: ConcreteRegisterStore keeps one 512-bit-wide
unsigned magnitude per root register id. -/
abbrev RegStore := Nat → Nat

/-- The register store with every root slot zeroed. -/
def emptyRegs : RegStore := fun _ => 0

/-- A mask with exactly bits low to high (inclusive) set. -/
def bitMask (low high : Nat) : Nat := (2 ^ (high - low + 1) - 1) <<< low

/-- Modelled from the spec: setLastRegisterValue(operand) performs a
read-modify-write on the root register slot: compute the mask covering
[lowBit, highBit], clear those bits in the stored 512-bit value, shift the
operand value (masked to its declared width) into position and OR it
in.  The implementation behind CpuInterface::setLastRegisterValue is not
in the sources. -/
def setLastRegisterValue (st : RegStore) (op : RegisterOperand) : RegStore :=
  fun r =>
    if r = op.parentId then
      (st r &&& ((2 ^ 512 - 1) ^^^ bitMask op.lowBit op.highBit)) |||
        ((op.value &&& (2 ^ (op.highBit - op.lowBit + 1) - 1)) <<< op.lowBit)
    else st r

/-- Modelled from the spec: getLastRegisterValue(operand) extracts bits
[lowBit, highBit] of the 512-bit value stored at the operand root
register and returns them right-shifted to start at bit 0. -/
def getLastRegisterValue (st : RegStore) (op : RegisterOperand) : Nat :=
  (st op.parentId >>> op.lowBit) &&& (2 ^ (op.highBit - op.lowBit + 1) - 1)

/-- Modelled from the spec: one catalog entry.  highBit and lowBit give
the inclusive bit range inside the parent; isReg and isFlg are the two
independently computed classification tags (a plain GPR is only a
register, a condition bit is only a flag, and on some architectures an
entry is both). -/
structure RegisterDescriptor where
  id : Nat
  name : String
  highBit : Nat
  lowBit : Nat
  parentId : Nat
  isReg : Bool
  isFlg : Bool

/-- Modelled from the spec: the RegisterCatalog is the immutable list of
every register, sub-register and flag descriptor of the architecture. -/
abbrev RegisterCatalog := List RegisterDescriptor

/-- Modelled from the spec: isRegister(id) holds iff some catalog entry
with that id is tagged as a register. -/
def isRegister (cat : RegisterCatalog) (id : Nat) : Bool :=
  cat.any (fun d => d.id = id && d.isReg)

/-- Modelled from the spec: isFlag(id) holds iff some catalog entry with
that id is tagged as a flag; computed independently of isRegister. -/
def isFlag (cat : RegisterCatalog) (id : Nat) : Bool :=
  cat.any (fun d => d.id = id && d.isFlg)

/-- Modelled from the spec: isRegisterValid(id) holds iff id is a
recognized catalog entry. -/
def isRegisterValid (cat : RegisterCatalog) (id : Nat) : Bool :=
  cat.any (fun d => d.id = id)

/-- Well-formed catalog: every entry is classified, i.e. is a register, a
flag, or both (the catalog holds exactly the roots, sub-registers and
flags of the architecture). -/
def catalogWF (cat : RegisterCatalog) : Bool :=
  cat.all (fun d => d.isReg || d.isFlg)

/-- Modelled from the spec: numberOfRegisters() is the total count of
catalog entries. -/
def numberOfRegisters (cat : RegisterCatalog) : Nat := cat.length

/-- Modelled from the spec: the ArchitectureContext composes the catalog
(built once by init, absent before) with the two mutable concrete
stores. -/
structure Context where
  catalog : Option RegisterCatalog
  regs : RegStore
  mem : MemStore

/-- Modelled from the spec: init() triggers the one-time catalog
construction (building the architecture catalog given by the build
argument); subsequent calls are no-ops after the first successful
build.  The implementation behind CpuInterface::init is not in the
sources. -/
def Context.init (build : RegisterCatalog) (c : Context) : Context :=
  match c.catalog with
  | some _ => c
  | none => { c with catalog := some build }

/-- Modelled from the spec: clear() resets both concrete stores to their
born-empty state and never rebuilds the catalog. -/
def Context.clear (c : Context) : Context :=
  { c with regs := emptyRegs, mem := emptyMem }

/-! ### Support lemmas -/

lemma applyWrites_apply (ws : List (Nat × Nat)) (st : MemStore) (addr : Nat) :
    applyWrites st ws addr =
      match lastWrite ws addr with
      | some v => some (v % 256)
      | none => st addr := by
  induction ws generalizing st with
  | nil => rfl
  | cons w ws ih =>
    show applyWrites (setLastMemoryValue st w.1 w.2) ws addr = _
    rw [ih]
    cases hlast : lastWrite ws addr with
    | some v => simp [lastWrite, hlast]
    | none =>
      simp only [lastWrite, hlast, setLastMemoryValue]
      by_cases h : w.1 = addr
      · subst h
        simp
      · have h2 : ¬ addr = w.1 := fun e => h e.symm
        simp [h, h2]

lemma lastWrite_mem (ws : List (Nat × Nat)) (addr v : Nat)
    (h : lastWrite ws addr = some v) : (addr, v) ∈ ws := by
  induction ws with
  | nil => exact absurd h (by simp [lastWrite])
  | cons w ws ih =>
    rw [lastWrite] at h
    cases hlast : lastWrite ws addr with
    | some u =>
      rw [hlast] at h
      cases h
      exact List.mem_cons_of_mem _ (ih hlast)
    | none =>
      rw [hlast] at h
      by_cases hw : w.1 = addr
      · rw [if_pos hw] at h
        injection h with h
        rw [← hw, ← h]
        exact List.mem_cons_self _ _
      · rw [if_neg hw] at h
        cases h

/-! ### Claim theorems -/

/-- C4: over any history of byte writes starting from the empty store,
getLastMemoryValue(addr) returns the byte most recently written to addr
when addr is present, returns 0 when addr was never written, and an
address is present exactly when some write touched it; absence is a
defined result, never a failure. -/
theorem getLastMemoryValue_lastWrite (ws : List (Nat × Nat)) (addr : Nat)
    (hws : ∀ w ∈ ws, w.2 < 256) :
    getLastMemoryValue (applyWrites emptyMem ws) addr = (lastWrite ws addr).getD 0
    ∧ ((applyWrites emptyMem ws addr).isSome ↔ (lastWrite ws addr).isSome)
    ∧ (lastWrite ws addr = none → getLastMemoryValue (applyWrites emptyMem ws) addr = 0) := by
  refine ⟨?_, ?_, ?_⟩
  · rw [getLastMemoryValue, applyWrites_apply]
    cases hlast : lastWrite ws addr with
    | some v =>
      have hv : v < 256 := hws (addr, v) (lastWrite_mem ws addr v hlast)
      simp [Nat.mod_eq_of_lt hv]
    | none => simp [emptyMem]
  · rw [applyWrites_apply]
    cases lastWrite ws addr <;> simp [emptyMem]
  · intro h
    rw [getLastMemoryValue, applyWrites_apply, h]
    simp [emptyMem]

/-- C4 witness: after writing byte 7 to address 3 and byte 9 to address 3,
reading address 3 returns 9, address 3 is present, and the untouched
address 4 reads as 0. -/
theorem getLastMemoryValue_lastWrite_witness :
    (∀ w ∈ [((3 : Nat), (7 : Nat)), (3, 9)], w.2 < 256)
    ∧ getLastMemoryValue (applyWrites emptyMem [(3, 7), (3, 9)]) 3
        = (lastWrite [(3, 7), (3, 9)] 3).getD 0
    ∧ getLastMemoryValue (applyWrites emptyMem [(3, 7), (3, 9)]) 4 = 0 :=
  ⟨by decide,
   (getLastMemoryValue_lastWrite [(3, 7), (3, 9)] 3 (by decide)).1,
   (getLastMemoryValue_lastWrite [(3, 7), (3, 9)] 4 (by decide)).2.2 (by decide)⟩

/-- C5: isMemoryMapped(base, size) is true iff every byte address of the
range is present; writing byte 0 to an address makes it mapped; an absent
address is unmapped even though it reads as 0. -/
theorem isMemoryMapped_spec (st : MemStore) (base size A : Nat) :
    (isMemoryMapped st base size = true ↔ ∀ i, i < size → (st (base + i)).isSome = true)
    ∧ isMemoryMapped (setLastMemoryValue st A 0) A 1 = true
    ∧ (st A = none → isMemoryMapped st A 1 = false ∧ getLastMemoryValue st A = 0) := by
  refine ⟨?_, ?_, ?_⟩
  · simp [isMemoryMapped, List.all_eq_true, List.mem_range]
  · simp [isMemoryMapped, setLastMemoryValue, List.all_eq_true]
  · intro h
    constructor
    · simp [isMemoryMapped, h]
    · simp [getLastMemoryValue, h]

/-- C5 witness: address 5 of the empty store is absent, hence unmapped yet
reading as 0; writing byte 0 to address 5 makes it mapped. -/
theorem isMemoryMapped_spec_witness :
    emptyMem 5 = none
    ∧ (isMemoryMapped emptyMem 5 1 = false ∧ getLastMemoryValue emptyMem 5 = 0)
    ∧ isMemoryMapped (setLastMemoryValue emptyMem 5 0) 5 1 = true :=
  ⟨rfl, (isMemoryMapped_spec emptyMem 0 0 5).2.2 rfl,
   (isMemoryMapped_spec emptyMem 0 0 5).2.1⟩

/-- C6 counterexample: the claim fails for size = 0: after
unmapMemory(0, 0), isMemoryMapped(0, 0) is true (every byte of the empty
range is vacuously present), not false as the claim states for every
size. -/
theorem unmapMemory_size_zero : isMemoryMapped (unmapMemory emptyMem 0 0) 0 0 = true := rfl

/-- C6 (amended to nonempty ranges): unmapMemory(base, size) removes
presence of every byte in the range regardless of prior value and is
idempotent; afterwards, provided the range is nonempty, isMemoryMapped on
the range is false, isMemoryMapped is false for each single byte of the
range, and getLastMemoryValue for any byte of the range returns 0. -/
theorem unmapMemory_spec (st : MemStore) (base size : Nat) :
    (∀ a, base ≤ a → a < base + size → unmapMemory st base size a = none)
    ∧ unmapMemory (unmapMemory st base size) base size = unmapMemory st base size
    ∧ (1 ≤ size → isMemoryMapped (unmapMemory st base size) base size = false)
    ∧ (∀ i, i < size → isMemoryMapped (unmapMemory st base size) (base + i) 1 = false)
    ∧ (∀ i, i < size → getLastMemoryValue (unmapMemory st base size) (base + i) = 0) := by
  have habs : ∀ a, base ≤ a → a < base + size → unmapMemory st base size a = none := by
    intro a h1 h2
    simp [unmapMemory, h1, h2]
  refine ⟨habs, ?_, ?_, ?_, ?_⟩
  · funext a
    by_cases h : base ≤ a ∧ a < base + size <;> simp [unmapMemory, h]
  · intro hsz
    have h0 : unmapMemory st base size base = none := habs _ (by omega) (by omega)
    rw [isMemoryMapped, List.all_eq_false]
    exact ⟨0, List.mem_range.mpr (by omega), by simp [h0]⟩
  · intro i hi
    have h0 : unmapMemory st base size (base + i) = none := habs _ (by omega) (by omega)
    rw [isMemoryMapped, List.all_eq_false]
    exact ⟨0, List.mem_range.mpr (by omega), by simp [h0]⟩
  · intro i hi
    rw [getLastMemoryValue, habs _ (by omega) (by omega)]
    rfl

/-- C6 witness: mapping address 2 then unmapping the range [0, 4) leaves
addresses 0 to 3 absent, unmapped and reading as 0. -/
theorem unmapMemory_spec_witness :
    (1 : Nat) ≤ 4
    ∧ (2 : Nat) < 4
    ∧ isMemoryMapped (unmapMemory (setLastMemoryValue emptyMem 2 9) 0 4) 0 4 = false
    ∧ isMemoryMapped (unmapMemory (setLastMemoryValue emptyMem 2 9) 0 4) (0 + 2) 1 = false
    ∧ getLastMemoryValue (unmapMemory (setLastMemoryValue emptyMem 2 9) 0 4) (0 + 2) = 0 :=
  ⟨by decide, by decide,
   (unmapMemory_spec (setLastMemoryValue emptyMem 2 9) 0 4).2.2.1 (by decide),
   (unmapMemory_spec (setLastMemoryValue emptyMem 2 9) 0 4).2.2.2.1 2 (by decide),
   (unmapMemory_spec (setLastMemoryValue emptyMem 2 9) 0 4).2.2.2.2 2 (by decide)⟩

/-- C9: init is idempotent (the second call is a no-op on the already
built catalog, so the whole context, the catalog and the register count
all agree with a single call), and clear twice equals clear once. -/
theorem init_clear_idempotent (build : RegisterCatalog) (c : Context) :
    Context.init build (Context.init build c) = Context.init build c
    ∧ (Context.init build (Context.init build c)).catalog = (Context.init build c).catalog
    ∧ numberOfRegisters ((Context.init build (Context.init build c)).catalog.getD [])
        = numberOfRegisters ((Context.init build c).catalog.getD [])
    ∧ Context.clear (Context.clear c) = Context.clear c := by
  have h : Context.init build (Context.init build c) = Context.init build c := by
    cases hc : c.catalog with
    | some cat =>
      have h1 : Context.init build c = c := by
        unfold Context.init
        rw [hc]
      rw [h1, h1]
    | none =>
      have h1 : Context.init build c = { c with catalog := some build } := by
        unfold Context.init
        rw [hc]
      rw [h1]
      rfl
  exact ⟨h, by rw [h], by rw [h], rfl⟩

lemma setLastMemoryAreaValue_apply (values : List Nat) (st : MemStore) (base a : Nat) :
    setLastMemoryAreaValue st base values a =
      if base ≤ a ∧ a < base + values.length then some (values.getD (a - base) 0 % 256)
      else st a := by
  induction values generalizing st base with
  | nil =>
    show st a = _
    rw [if_neg (by simp only [List.length_nil, Nat.add_zero]; omega)]
  | cons v rest ih =>
    show setLastMemoryAreaValue (setLastMemoryValue st base v) (base + 1) rest a = _
    rw [ih]
    by_cases h : base + 1 ≤ a ∧ a < base + 1 + rest.length
    · rw [if_pos h, if_pos (by simp only [List.length_cons]; omega)]
      have hsplit : a - base = (a - (base + 1)) + 1 := by omega
      rw [hsplit, List.getD_cons_succ]
    · rw [if_neg h]
      simp only [setLastMemoryValue]
      by_cases ha : a = base
      · subst ha
        rw [if_pos rfl, if_pos (by simp only [List.length_cons]; omega)]
        simp
      · rw [if_neg ha, if_neg (by simp only [List.length_cons]; omega)]

lemma setLastMemoryAreaValuePtr_apply (size : Nat) (st : MemStore) (base : Nat)
    (area : Nat → Nat) (a : Nat) :
    setLastMemoryAreaValuePtr st base area size a =
      if base ≤ a ∧ a < base + size then some (area (a - base) % 256) else st a := by
  induction size with
  | zero =>
    show st a = _
    rw [if_neg (by omega)]
  | succ n ih =>
    show setLastMemoryValue (setLastMemoryAreaValuePtr st base area n) (base + n) (area n) a = _
    simp only [setLastMemoryValue]
    by_cases ha : a = base + n
    · subst ha
      rw [if_pos rfl, if_pos (by omega)]
      have : base + n - base = n := by omega
      rw [this]
    · rw [if_neg ha, ih]
      by_cases h : base ≤ a ∧ a < base + n
      · rw [if_pos h, if_pos (by omega)]
      · rw [if_neg h, if_neg (by omega)]

lemma memWF_emptyMem : memWF emptyMem := fun _ v h => Option.noConfusion h

lemma memWF_setLastMemoryAreaValue (st : MemStore) (base : Nat) (values : List Nat)
    (h : memWF st) : memWF (setLastMemoryAreaValue st base values) := by
  intro a v hv
  rw [setLastMemoryAreaValue_apply] at hv
  by_cases hc : base ≤ a ∧ a < base + values.length
  · rw [if_pos hc] at hv
    injection hv with hv
    rw [← hv]
    exact Nat.mod_lt _ (by norm_num)
  · rw [if_neg hc] at hv
    exact h a v hv

/-- C8: writing a byte sequence at base and reading back an area of the
same length at base returns exactly that sequence, same length, same
increasing-address order. -/
theorem memoryArea_roundTrip (st : MemStore) (base : Nat) (values : List Nat)
    (hv : ∀ v ∈ values, v < 256) :
    getLastMemoryAreaValue (setLastMemoryAreaValue st base values) base values.length
      = values := by
  apply List.ext_getElem
  · simp [getLastMemoryAreaValue]
  · intro i h1 h2
    simp only [getLastMemoryAreaValue, List.getElem_map, List.getElem_range]
    rw [getLastMemoryValue, setLastMemoryAreaValue_apply,
        if_pos (by constructor <;> omega)]
    have hbi : base + i - base = i := by omega
    rw [hbi, List.getD_eq_getElem values 0 h2]
    simp [Nat.mod_eq_of_lt (hv _ (List.getElem_mem h2))]

/-- C8 witness: the round trip on the concrete sequence [1, 255, 0] at
base 7 over the empty store. -/
theorem memoryArea_roundTrip_witness :
    (∀ v ∈ [(1 : Nat), 255, 0], v < 256)
    ∧ getLastMemoryAreaValue (setLastMemoryAreaValue emptyMem 7 [1, 255, 0]) 7
        (List.length [1, 255, 0]) = [1, 255, 0] :=
  ⟨by decide, memoryArea_roundTrip emptyMem 7 [1, 255, 0] (by decide)⟩

/-- C10: the byte-sequence overload and the pointer-and-length overload of
setLastMemoryAreaValue leave the memory store in exactly the same state
when the pointed-to area holds the same bytes and the length equals the
sequence length. -/
theorem setLastMemoryAreaValue_overloads_agree (st : MemStore) (base : Nat)
    (values : List Nat) (area : Nat → Nat)
    (harea : ∀ i, i < values.length → area i = values.getD i 0) :
    setLastMemoryAreaValuePtr st base area values.length
      = setLastMemoryAreaValue st base values := by
  funext a
  rw [setLastMemoryAreaValuePtr_apply, setLastMemoryAreaValue_apply]
  by_cases h : base ≤ a ∧ a < base + values.length
  · rw [if_pos h, if_pos h, harea _ (by omega)]
  · rw [if_neg h, if_neg h]

/-- C10 witness: both overloads applied to the bytes [17, 3] at base 10
over the empty store produce the same store. -/
theorem setLastMemoryAreaValue_overloads_agree_witness :
    (∀ i, i < List.length [(17 : Nat), 3] → List.getD [(17 : Nat), 3] i 0 = List.getD [(17 : Nat), 3] i 0)
    ∧ setLastMemoryAreaValuePtr emptyMem 10 (fun i => List.getD [(17 : Nat), 3] i 0)
        (List.length [(17 : Nat), 3])
      = setLastMemoryAreaValue emptyMem 10 [17, 3] :=
  ⟨fun _ _ => rfl,
   setLastMemoryAreaValue_overloads_agree emptyMem 10 [17, 3]
     (fun i => List.getD [(17 : Nat), 3] i 0) (fun _ _ => rfl)⟩

lemma getLastMemoryValue_lt (st : MemStore) (h : memWF st) (a : Nat) :
    getLastMemoryValue st a < 256 := by
  rw [getLastMemoryValue]
  cases hsa : st a with
  | none => simp
  | some v => simpa using h a v hsa

lemma lor_shiftLeft_eq_add (x b k : Nat) (hx : x < 2 ^ k) :
    x ||| b <<< k = 2 ^ k * b + x := by
  apply Nat.eq_of_testBit_eq
  intro j
  rw [Nat.testBit_mul_pow_two_add _ hx, Nat.testBit_or, Nat.testBit_shiftLeft]
  by_cases hj : j < k
  · rw [if_pos hj, decide_eq_false (by omega), Bool.false_and, Bool.or_false]
  · have hge : k ≤ j := Nat.le_of_not_lt hj
    have hxj : x.testBit j = false :=
      Nat.testBit_lt_two_pow (lt_of_lt_of_le hx (Nat.pow_le_pow_right (by norm_num) hge))
    rw [if_neg hj, hxj, decide_eq_true hge, Bool.true_and, Bool.false_or]

lemma getLastMemoryValueMem_lt (st : MemStore) (addr : Nat) (h : memWF st) :
    ∀ size, getLastMemoryValueMem st addr size < 2 ^ (8 * size) := by
  intro size
  induction size with
  | zero => simp [getLastMemoryValueMem]
  | succ n ih =>
    rw [getLastMemoryValueMem, lor_shiftLeft_eq_add _ _ _ ih]
    have hb : getLastMemoryValue st (addr + n) ≤ 255 :=
      Nat.le_of_lt_succ (getLastMemoryValue_lt st h (addr + n))
    have h1 : 2 ^ (8 * n) * getLastMemoryValue st (addr + n) ≤ 2 ^ (8 * n) * 255 :=
      Nat.mul_le_mul_left _ hb
    have h2 : 8 * (n + 1) = 8 * n + 8 := by ring
    rw [h2, pow_add]
    have h3 : (2 : Nat) ^ 8 = 256 := by norm_num
    rw [h3]
    omega

lemma getLastMemoryValueMem_eq_sum (st : MemStore) (addr : Nat) (h : memWF st)
    (size : Nat) :
    getLastMemoryValueMem st addr size
      = ∑ i ∈ Finset.range size, getLastMemoryValue st (addr + i) * 2 ^ (8 * i) := by
  induction size with
  | zero => rfl
  | succ n ih =>
    rw [getLastMemoryValueMem, lor_shiftLeft_eq_add _ _ _ (getLastMemoryValueMem_lt st addr h n),
        Finset.sum_range_succ, ih]
    ring

/-- C7: on the little-endian byte order, getLastMemoryValue of a memory
operand assembles the bytes at increasing addresses so that byte i lands
at bit position 8i (with the per-byte zero default for missing bytes,
inherited from getLastMemoryValue); for at most 64 bytes the result fits
in 512 bits; and assembling 4 bytes [1, 2, 3, 4] yields 0x04030201. -/
theorem getLastMemoryValueMem_spec (st : MemStore) (addr size : Nat)
    (h : memWF st) (hsz : size ≤ 64) :
    (getLastMemoryValueMem st addr size
        = ∑ i ∈ Finset.range size, getLastMemoryValue st (addr + i) * 2 ^ (8 * i))
    ∧ getLastMemoryValueMem st addr size < 2 ^ 512
    ∧ getLastMemoryValueMem (setLastMemoryAreaValue emptyMem 100 [1, 2, 3, 4]) 100 4
        = 0x04030201 := by
  refine ⟨getLastMemoryValueMem_eq_sum st addr h size, ?_, ?_⟩
  · exact lt_of_lt_of_le (getLastMemoryValueMem_lt st addr h size)
      (Nat.pow_le_pow_right (by norm_num) (by omega))
  · rfl

/-- C7 witness: the theorem applied to the store holding [1, 2, 3, 4] at
address 100, whose 4-byte operand at 100 assembles to 0x04030201. -/
theorem getLastMemoryValueMem_spec_witness :
    (4 : Nat) ≤ 64
    ∧ getLastMemoryValueMem (setLastMemoryAreaValue emptyMem 100 [1, 2, 3, 4]) 100 4
        = 0x04030201 :=
  ⟨by decide,
   (getLastMemoryValueMem_spec (setLastMemoryAreaValue emptyMem 100 [1, 2, 3, 4]) 100 4
     (memWF_setLastMemoryAreaValue emptyMem 100 [1, 2, 3, 4] memWF_emptyMem)
     (by decide)).2.2⟩

lemma testBit_bitMask_in (low high i : Nat) (hlo : low ≤ i) (hhi : i ≤ high) :
    (bitMask low high).testBit i = true := by
  rw [bitMask, Nat.testBit_shiftLeft, Nat.testBit_two_pow_sub_one,
      decide_eq_true (show i ≥ low from hlo), decide_eq_true (show i - low < high - low + 1 by omega),
      Bool.and_self]

lemma testBit_bitMask_out (low high i : Nat) (h1 : low ≤ high) (hout : i < low ∨ high < i) :
    (bitMask low high).testBit i = false := by
  rw [bitMask, Nat.testBit_shiftLeft, Nat.testBit_two_pow_sub_one]
  rcases hout with hlt | hgt
  · rw [decide_eq_false (show ¬ i ≥ low by omega), Bool.false_and]
  · rw [decide_eq_false (show ¬ i - low < high - low + 1 by omega), Bool.and_false]

lemma setLastRegisterValue_parent (st : RegStore) (op : RegisterOperand) :
    setLastRegisterValue st op op.parentId =
      (st op.parentId &&& ((2 ^ 512 - 1) ^^^ bitMask op.lowBit op.highBit)) |||
        ((op.value &&& (2 ^ (op.highBit - op.lowBit + 1) - 1)) <<< op.lowBit) := by
  simp [setLastRegisterValue]

lemma setLastRegisterValue_other (st : RegStore) (op : RegisterOperand) (r : Nat)
    (h : r ≠ op.parentId) : setLastRegisterValue st op r = st r := by
  simp [setLastRegisterValue, h]

lemma setLastRegisterValue_testBit_in (st : RegStore) (op : RegisterOperand)
    (h2 : op.highBit < 512) (i : Nat) (hlo : op.lowBit ≤ i) (hhi : i ≤ op.highBit) :
    (setLastRegisterValue st op op.parentId).testBit i = op.value.testBit (i - op.lowBit) := by
  rw [setLastRegisterValue_parent, Nat.testBit_or, Nat.testBit_and, Nat.testBit_xor,
      Nat.testBit_two_pow_sub_one, testBit_bitMask_in op.lowBit op.highBit i hlo hhi,
      Nat.testBit_shiftLeft, Nat.testBit_and, Nat.testBit_two_pow_sub_one,
      decide_eq_true (show i < 512 by omega),
      decide_eq_true (show i ≥ op.lowBit from hlo),
      decide_eq_true (show i - op.lowBit < op.highBit - op.lowBit + 1 by omega)]
  simp

lemma setLastRegisterValue_testBit_out (st : RegStore) (op : RegisterOperand)
    (h1 : op.lowBit ≤ op.highBit) (h2 : op.highBit < 512)
    (hst : st op.parentId < 2 ^ 512) (i : Nat)
    (hout : i < op.lowBit ∨ op.highBit < i) :
    (setLastRegisterValue st op op.parentId).testBit i = (st op.parentId).testBit i := by
  rw [setLastRegisterValue_parent, Nat.testBit_or, Nat.testBit_and, Nat.testBit_xor,
      Nat.testBit_two_pow_sub_one, testBit_bitMask_out op.lowBit op.highBit i h1 hout,
      Nat.testBit_shiftLeft, Nat.testBit_and, Nat.testBit_two_pow_sub_one]
  by_cases hi : i < 512
  · rw [decide_eq_true hi]
    rcases hout with hlt | hgt
    · rw [decide_eq_false (show ¬ i ≥ op.lowBit by omega)]
      simp
    · rw [decide_eq_false (show ¬ i - op.lowBit < op.highBit - op.lowBit + 1 by omega)]
      simp
  · have hfalse : (st op.parentId).testBit i = false :=
      Nat.testBit_lt_two_pow
        (lt_of_lt_of_le hst (Nat.pow_le_pow_right (by norm_num) (by omega)))
    rw [decide_eq_false hi, hfalse,
        decide_eq_false (show ¬ i - op.lowBit < op.highBit - op.lowBit + 1 by omega)]
    simp

/-- C1: setLastRegisterValue masks the incoming value into exactly the bits
[lowBit, highBit] of the root slot, leaves every bit of the root outside
that range unchanged, and hence reading a disjoint sub-register B of the
same root after writing A returns the pre-write value of B. -/
theorem setLastRegisterValue_frame (st : RegStore) (A B : RegisterOperand)
    (hA1 : A.lowBit ≤ A.highBit) (hA2 : A.highBit < 512)
    (hst : st A.parentId < 2 ^ 512)
    (hB1 : B.lowBit ≤ B.highBit) (hBroot : B.parentId = A.parentId)
    (hdisj : B.highBit < A.lowBit ∨ A.highBit < B.lowBit) :
    (∀ i, A.lowBit ≤ i → i ≤ A.highBit →
        (setLastRegisterValue st A A.parentId).testBit i = A.value.testBit (i - A.lowBit))
    ∧ (∀ i, i < A.lowBit ∨ A.highBit < i →
        (setLastRegisterValue st A A.parentId).testBit i = (st A.parentId).testBit i)
    ∧ getLastRegisterValue (setLastRegisterValue st A) B = getLastRegisterValue st B := by
  refine ⟨fun i hlo hhi => setLastRegisterValue_testBit_in st A hA2 i hlo hhi,
          fun i hout => setLastRegisterValue_testBit_out st A hA1 hA2 hst i hout, ?_⟩
  unfold getLastRegisterValue
  rw [hBroot]
  apply Nat.eq_of_testBit_eq
  intro j
  rw [Nat.testBit_and, Nat.testBit_and, Nat.testBit_shiftRight, Nat.testBit_shiftRight,
      Nat.testBit_two_pow_sub_one]
  by_cases hj : j < B.highBit - B.lowBit + 1
  · rw [decide_eq_true hj,
        setLastRegisterValue_testBit_out st A hA1 hA2 hst _ (by omega)]
  · rw [decide_eq_false hj]
    simp

/-- C1 witness: over the zeroed store, writing 0xAB into bits [0, 7] of
root 0 leaves the disjoint sub-register [8, 15] reading its pre-write
value. -/
theorem setLastRegisterValue_frame_witness :
    getLastRegisterValue (setLastRegisterValue emptyRegs ⟨0, 0, 7, 0xAB⟩) ⟨0, 8, 15, 0⟩
      = getLastRegisterValue emptyRegs ⟨0, 8, 15, 0⟩ :=
  (setLastRegisterValue_frame emptyRegs ⟨0, 0, 7, 0xAB⟩ ⟨0, 8, 15, 0⟩
    (by decide) (by decide) (Nat.pos_pow_of_pos 512 (by decide)) (by decide) rfl
    (Or.inr (by decide))).2.2

/-- C2: writing a register operand and immediately reading the same
operand returns exactly the written value truncated to the declared
width of the operand, right-shifted to start at bit 0. -/
theorem register_roundTrip (st : RegStore) (op : RegisterOperand)
    (h1 : op.lowBit ≤ op.highBit) (h2 : op.highBit < 512) :
    getLastRegisterValue (setLastRegisterValue st op) op
      = op.value % 2 ^ (op.highBit - op.lowBit + 1) := by
  unfold getLastRegisterValue
  apply Nat.eq_of_testBit_eq
  intro j
  rw [Nat.testBit_and, Nat.testBit_shiftRight, Nat.testBit_two_pow_sub_one,
      Nat.testBit_mod_two_pow]
  by_cases hj : j < op.highBit - op.lowBit + 1
  · rw [decide_eq_true hj,
        setLastRegisterValue_testBit_in st op h2 (op.lowBit + j) (by omega) (by omega)]
    have hj2 : op.lowBit + j - op.lowBit = j := by omega
    rw [hj2]
    simp
  · rw [decide_eq_false hj]
    simp

/-- C2 witness: writing 0x15C into bits [4, 11] of root 0 and reading the
same operand returns 0x15C mod 2^8 = 0x5C. -/
theorem register_roundTrip_witness :
    getLastRegisterValue (setLastRegisterValue emptyRegs ⟨0, 4, 11, 0x15C⟩) ⟨0, 4, 11, 0x15C⟩
      = 0x15C % 2 ^ (11 - 4 + 1) :=
  register_roundTrip emptyRegs ⟨0, 4, 11, 0x15C⟩ (by decide) (by decide)

/-- C3: on a well-formed catalog (every entry classified as register, flag
or both), isRegisterValid(id) holds iff isRegister(id) or isFlag(id)
holds, although the two classification predicates are computed
independently and may overlap on one id. -/
theorem isRegisterValid_iff (cat : RegisterCatalog) (id : Nat)
    (hwf : catalogWF cat = true) :
    isRegisterValid cat id = (isRegister cat id || isFlag cat id) := by
  induction cat with
  | nil => rfl
  | cons d rest ih =>
    rw [catalogWF, List.all_cons, Bool.and_eq_true] at hwf
    obtain ⟨hd, hrest⟩ := hwf
    show (decide (d.id = id) || isRegisterValid rest id)
        = ((decide (d.id = id) && d.isReg) || isRegister rest id
            || ((decide (d.id = id) && d.isFlg) || isFlag rest id))
    rw [ih hrest]
    by_cases hid : d.id = id
    · rw [decide_eq_true hid]
      cases hreg : d.isReg <;> cases hflg : d.isFlg <;> simp_all
    · rw [decide_eq_false hid]
      simp [Bool.or_assoc, Bool.or_comm, Bool.or_left_comm]

/-- C3 witness: a two-entry catalog (one plain register, one flag) is
well formed, and the equivalence evaluated at id 1 gives true on both
sides. -/
theorem isRegisterValid_iff_witness :
    catalogWF [⟨0, "a", 63, 0, 0, true, false⟩, ⟨1, "z", 0, 0, 0, false, true⟩] = true
    ∧ isRegisterValid [⟨0, "a", 63, 0, 0, true, false⟩, ⟨1, "z", 0, 0, 0, false, true⟩] 1
        = (isRegister [⟨0, "a", 63, 0, 0, true, false⟩, ⟨1, "z", 0, 0, 0, false, true⟩] 1
            || isFlag [⟨0, "a", 63, 0, 0, true, false⟩, ⟨1, "z", 0, 0, 0, false, true⟩] 1) :=
  ⟨rfl,
   isRegisterValid_iff [⟨0, "a", 63, 0, 0, true, false⟩, ⟨1, "z", 0, 0, 0, false, true⟩] 1 rfl⟩

end Triton
